import Mathlib

/-!
Verification of the nearest-neighbor index utilities of
`src/astrodynamics/utils/helper.py`: `find_nearest_index` and
`get_neighbors_index`. Arrays of real numbers are embedded as `List ℚ`,
`np.argsort` as an insertion sort of the index list `range n` compared
through the values, and `np.searchsorted(..., side='left')` as the leftmost
insertion point of the query in the sorted value list. Python's
`slice(start, end)` is embedded as the pair `(start, end)` of integers
(Python integers are unbounded and `start` can come out negative), and
Python's floor division `//` as `Int.fdiv`.
-/

namespace Astro

/-- The comparison `np.argsort` sorts by: index `i` comes before index `j`
when the value at `i` is at most the value at `j`. -/
def valueLe (array : List ℚ) (i j : Nat) : Prop :=
  array.getD i 0 ≤ array.getD j 0

instance (array : List ℚ) : DecidableRel (valueLe array) :=
  fun i j => inferInstanceAs (Decidable (array.getD i 0 ≤ array.getD j 0))

instance (array : List ℚ) : IsTotal Nat (valueLe array) :=
  ⟨fun _ _ => le_total _ _⟩

instance (array : List ℚ) : IsTrans Nat (valueLe array) :=
  ⟨fun _ _ _ => le_trans⟩

/-- `np.argsort(array)`: a permutation of `0, …, n-1` ordering the values of
`array` ascending. -/
def argsort (array : List ℚ) : List Nat :=
  (List.range array.length).insertionSort (valueLe array)

/-- `np.array(array[idx_sorted])`: the values of `array` listed in ascending
order, as built inside `find_nearest_index`. -/
def sorted_array_of (array : List ℚ) : List ℚ :=
  (argsort array).map (fun i => array.getD i 0)

/-- `np.searchsorted(sorted, value, side='left')`: the leftmost insertion
point of `value` in the ascending list `sorted`, i.e. the index of the first
element that is not `< value`. -/
def searchsorted_left (sorted : List ℚ) (value : ℚ) : Nat :=
  (sorted.takeWhile (fun x => decide (x < value))).length

/-- Python's `abs` on a rational value, written so that it evaluates by
kernel reduction. -/
def rabs (q : ℚ) : ℚ :=
  if q < 0 then -q else q

/-- `find_nearest_index(array, value)` from `helper.py`: index into the
original array of an element nearest to `value`. -/
def find_nearest_index (array : List ℚ) (value : ℚ) : Nat :=
  let idx_sorted := argsort array
  let sorted_array := sorted_array_of array
  let idx := searchsorted_left sorted_array value
  if idx ≥ array.length then
    idx_sorted.getD (array.length - 1) 0
  else if idx = 0 then
    idx_sorted.getD 0 0
  else if rabs (value - sorted_array.getD (idx - 1) 0) <
      rabs (value - sorted_array.getD idx 0) then
    idx_sorted.getD (idx - 1) 0
  else
    idx_sorted.getD idx 0

/-- `get_neighbors_index(array, central, num_neighbors)` from `helper.py`:
returns the `slice(start, end)` as the pair `(start, end)`. -/
def get_neighbors_index (array : List ℚ) (central : ℚ) (num_neighbors : ℤ) :
    ℤ × ℤ :=
  let idx : ℤ := (find_nearest_index array central : ℤ)
  let start := max 0 (idx - Int.fdiv (num_neighbors - 1) 2)
  let stop := min (array.length : ℤ) (start + num_neighbors)
  (stop - num_neighbors, stop)

/-- The reference recipe stated by the spec for `get_neighbors_index`, worded
step by step: `idx = find_nearest_index(array, central)`;
`start = max(0, idx - (num_neighbors - 1) // 2)`;
`end = min(len(array), start + num_neighbors)`; `start = end - num_neighbors`;
return the half-open range `[start, end)`. -/
def get_neighbors_index_recipe (array : List ℚ) (central : ℚ)
    (num_neighbors : ℤ) : ℤ × ℤ :=
  let idx : ℤ := (find_nearest_index array central : ℤ)
  let start1 := max 0 (idx - Int.fdiv (num_neighbors - 1) 2)
  let stop := min (array.length : ℤ) (start1 + num_neighbors)
  let start2 := stop - num_neighbors
  (start2, stop)

/-- One call of `find_nearest_index` as the caller observes it: the returned
index together with the array after the call. The source only reads `array`
(`np.argsort` and the fancy-indexing copy allocate fresh arrays), so the
array after the call is the input array. -/
def find_nearest_index_call (array : List ℚ) (value : ℚ) : Nat × List ℚ :=
  (find_nearest_index array value, array)

/-- The position in the ascending list `S` selected by the branch logic of
`find_nearest_index`; the function returns the entry of the argsort
permutation at this position. -/
def nearestPos (S : List ℚ) (value : ℚ) : Nat :=
  let idx := searchsorted_left S value
  if idx ≥ S.length then S.length - 1
  else if idx = 0 then 0
  else if rabs (value - S.getD (idx - 1) 0) < rabs (value - S.getD idx 0) then
    idx - 1
  else idx

/-! ### Basic facts about `rabs` -/

theorem rabs_eq_abs (q : ℚ) : rabs q = |q| := by
  unfold rabs
  rcases lt_or_le q 0 with h | h
  · rw [if_pos h, abs_of_neg h]
  · rw [if_neg (not_lt.mpr h), abs_of_nonneg h]

theorem rabs_of_nonpos {q : ℚ} (h : q ≤ 0) : rabs q = -q := by
  rw [rabs_eq_abs]
  exact abs_of_nonpos h

theorem rabs_of_nonneg {q : ℚ} (h : 0 ≤ q) : rabs q = q := by
  rw [rabs_eq_abs]
  exact abs_of_nonneg h

theorem rabs_nonneg (q : ℚ) : 0 ≤ rabs q := by
  rw [rabs_eq_abs]
  exact abs_nonneg q

theorem rabs_sub_comm (a b : ℚ) : rabs (a - b) = rabs (b - a) := by
  rw [rabs_eq_abs, rabs_eq_abs, abs_sub_comm]

/-! ### Facts about `argsort` and `sorted_array_of` -/

theorem argsort_perm (array : List ℚ) :
    (argsort array).Perm (List.range array.length) :=
  List.perm_insertionSort _ _

theorem argsort_length (array : List ℚ) :
    (argsort array).length = array.length := by
  rw [(argsort_perm array).length_eq, List.length_range]

theorem argsort_mem_lt {array : List ℚ} {i : Nat} (h : i ∈ argsort array) :
    i < array.length := by
  have := (argsort_perm array).mem_iff.mp h
  exact List.mem_range.mp this

theorem argsort_getD_lt {array : List ℚ} {t : Nat} (ht : t < array.length) :
    (argsort array).getD t 0 < array.length := by
  have ht' : t < (argsort array).length := by rw [argsort_length]; exact ht
  rw [List.getD_eq_getElem _ _ ht']
  exact argsort_mem_lt (List.getElem_mem ht')

theorem argsort_pairwise (array : List ℚ) :
    (argsort array).Pairwise (valueLe array) :=
  List.sorted_insertionSort _ _

theorem exists_argsort_pos {array : List ℚ} {j : Nat} (hj : j < array.length) :
    ∃ t, t < array.length ∧ (argsort array).getD t 0 = j := by
  have hmem : j ∈ argsort array :=
    (argsort_perm array).mem_iff.mpr (List.mem_range.mpr hj)
  obtain ⟨t, ht, hget⟩ := List.mem_iff_getElem.mp hmem
  refine ⟨t, by rw [← argsort_length]; exact ht, ?_⟩
  rw [List.getD_eq_getElem _ _ ht]
  exact hget

theorem sorted_array_of_length (array : List ℚ) :
    (sorted_array_of array).length = array.length := by
  unfold sorted_array_of
  rw [List.length_map, argsort_length]

theorem sorted_array_of_getD {array : List ℚ} {k : Nat} (hk : k < array.length) :
    (sorted_array_of array).getD k 0 = array.getD ((argsort array).getD k 0) 0 := by
  have hk1 : k < (sorted_array_of array).length := by
    rw [sorted_array_of_length]; exact hk
  have hk2 : k < (argsort array).length := by rw [argsort_length]; exact hk
  rw [List.getD_eq_getElem _ _ hk1, List.getD_eq_getElem _ _ hk2]
  unfold sorted_array_of
  simp

theorem sorted_array_of_mono {array : List ℚ} {t u : Nat} (htu : t ≤ u)
    (hu : u < array.length) :
    (sorted_array_of array).getD t 0 ≤ (sorted_array_of array).getD u 0 := by
  rcases eq_or_lt_of_le htu with rfl | htu'
  · exact le_refl _
  · have hu' : u < (argsort array).length := by rw [argsort_length]; exact hu
    have ht' : t < (argsort array).length := lt_trans htu' hu'
    have hpw := (List.pairwise_iff_getElem.mp (argsort_pairwise array))
      t u ht' hu' htu'
    have ht'' : t < array.length := by rw [← argsort_length]; exact ht'
    rw [sorted_array_of_getD ht'', sorted_array_of_getD hu,
      List.getD_eq_getElem _ _ ht', List.getD_eq_getElem _ _ hu']
    exact hpw

/-! ### Facts about `searchsorted_left` -/

theorem takeWhile_getD_sat {p : ℚ → Bool} :
    ∀ (l : List ℚ) (k : Nat), k < (l.takeWhile p).length →
      k < l.length ∧ p (l.getD k 0) = true
  | [], k, h => by simp at h
  | x :: l, k, h => by
    by_cases hx : p x
    · rw [List.takeWhile_cons_of_pos hx] at h
      cases k with
      | zero => exact ⟨Nat.succ_pos _, by simpa using hx⟩
      | succ k =>
        have ih := takeWhile_getD_sat l k (Nat.lt_of_succ_lt_succ h)
        exact ⟨Nat.succ_lt_succ ih.1, by simpa using ih.2⟩
    · rw [List.takeWhile_cons_of_neg hx] at h
      simp at h

theorem takeWhile_getD_stop {p : ℚ → Bool} :
    ∀ l : List ℚ, (l.takeWhile p).length < l.length →
      p (l.getD (l.takeWhile p).length 0) = false
  | [], h => by simp at h
  | x :: l, h => by
    by_cases hx : p x
    · rw [List.takeWhile_cons_of_pos hx] at h ⊢
      have ih := takeWhile_getD_stop l (Nat.lt_of_succ_lt_succ h)
      simpa using ih
    · rw [List.takeWhile_cons_of_neg hx]
      simpa using hx

theorem searchsorted_lt_of_lt {sorted : List ℚ} {v : ℚ} {k : Nat}
    (h : k < searchsorted_left sorted v) :
    k < sorted.length ∧ sorted.getD k 0 < v := by
  have := takeWhile_getD_sat sorted k h
  exact ⟨this.1, by simpa using this.2⟩

theorem searchsorted_ge {sorted : List ℚ} {v : ℚ}
    (h : searchsorted_left sorted v < sorted.length) :
    v ≤ sorted.getD (searchsorted_left sorted v) 0 := by
  have := takeWhile_getD_stop sorted h
  simpa using this

/-! ### The sorted-order position selected by `find_nearest_index` -/

theorem find_nearest_index_eq (array : List ℚ) (value : ℚ) :
    find_nearest_index array value =
      (argsort array).getD (nearestPos (sorted_array_of array) value) 0 := by
  simp only [find_nearest_index, nearestPos, sorted_array_of_length]
  split_ifs <;> rfl

theorem nearestPos_lt {S : List ℚ} (value : ℚ) (hne : S.length ≠ 0) :
    nearestPos S value < S.length := by
  simp only [nearestPos]
  split_ifs <;> omega

/-- The returned index is a valid index of the original array. -/
theorem find_nearest_index_lt (array : List ℚ) (value : ℚ)
    (hlen : array.length ≠ 0) :
    find_nearest_index array value < array.length := by
  rw [find_nearest_index_eq]
  refine argsort_getD_lt ?_
  have := nearestPos_lt (S := sorted_array_of array) value
    (by rw [sorted_array_of_length]; exact hlen)
  rwa [sorted_array_of_length] at this

/-- The value of the original array at the returned index is the value of the
sorted array at the selected position. -/
theorem find_nearest_index_val (array : List ℚ) (value : ℚ)
    (hlen : array.length ≠ 0) :
    array.getD (find_nearest_index array value) 0 =
      (sorted_array_of array).getD (nearestPos (sorted_array_of array) value) 0 := by
  have hposlt : nearestPos (sorted_array_of array) value < array.length := by
    have := nearestPos_lt (S := sorted_array_of array) value
      (by rw [sorted_array_of_length]; exact hlen)
    rwa [sorted_array_of_length] at this
  rw [find_nearest_index_eq, ← sorted_array_of_getD hposlt]

/-- The selected position minimizes the distance to `value` over all
positions, provided `S` is ascending (stated through `getD` monotonicity). -/
theorem nearestPos_min {S : List ℚ} {v : ℚ}
    (hmono : ∀ t u, t ≤ u → u < S.length → S.getD t 0 ≤ S.getD u 0)
    {t : Nat} (ht : t < S.length) :
    rabs (S.getD (nearestPos S v) 0 - v) ≤ rabs (S.getD t 0 - v) := by
  have hlt : ∀ k, k < searchsorted_left S v → S.getD k 0 < v :=
    fun k hk => (searchsorted_lt_of_lt hk).2
  have hge : searchsorted_left S v < S.length →
      v ≤ S.getD (searchsorted_left S v) 0 :=
    fun h => searchsorted_ge h
  simp only [nearestPos]
  split_ifs with h1 h2 h3
  · have ha : S.getD t 0 < v := hlt t (lt_of_lt_of_le ht h1)
    have hb : S.getD (S.length - 1) 0 < v :=
      hlt _ (lt_of_lt_of_le (by omega) h1)
    have hc : S.getD t 0 ≤ S.getD (S.length - 1) 0 :=
      hmono t (S.length - 1) (by omega) (by omega)
    rw [rabs_of_nonpos (by linarith), rabs_of_nonpos (by linarith)]
    linarith
  · have h0 : v ≤ S.getD 0 0 := by
      have := hge (by omega)
      rwa [h2] at this
    have hc : S.getD 0 0 ≤ S.getD t 0 := hmono 0 t (Nat.zero_le _) ht
    rw [rabs_of_nonneg (by linarith), rabs_of_nonneg (by linarith)]
    linarith
  · have hins_lt : searchsorted_left S v < S.length := by omega
    have hprev : S.getD (searchsorted_left S v - 1) 0 < v := hlt _ (by omega)
    have hnext : v ≤ S.getD (searchsorted_left S v) 0 := hge hins_lt
    have e1 : rabs (v - S.getD (searchsorted_left S v - 1) 0) =
        v - S.getD (searchsorted_left S v - 1) 0 := rabs_of_nonneg (by linarith)
    have e2 : rabs (v - S.getD (searchsorted_left S v) 0) =
        S.getD (searchsorted_left S v) 0 - v := by
      rw [rabs_sub_comm]
      exact rabs_of_nonneg (by linarith)
    rw [e1, e2] at h3
    rcases lt_or_le t (searchsorted_left S v) with hts | hts
    · have ha : S.getD t 0 < v := hlt t hts
      have hc : S.getD t 0 ≤ S.getD (searchsorted_left S v - 1) 0 :=
        hmono t _ (by omega) (by omega)
      rw [rabs_of_nonpos (by linarith), rabs_of_nonpos (by linarith)]
      linarith
    · have hmid : S.getD (searchsorted_left S v) 0 ≤ S.getD t 0 :=
        hmono _ t hts ht
      rw [rabs_of_nonpos (by linarith), rabs_of_nonneg (by linarith)]
      linarith
  · have hins_lt : searchsorted_left S v < S.length := by omega
    have hprev : S.getD (searchsorted_left S v - 1) 0 < v := hlt _ (by omega)
    have hnext : v ≤ S.getD (searchsorted_left S v) 0 := hge hins_lt
    push_neg at h3
    have e1 : rabs (v - S.getD (searchsorted_left S v - 1) 0) =
        v - S.getD (searchsorted_left S v - 1) 0 := rabs_of_nonneg (by linarith)
    have e2 : rabs (v - S.getD (searchsorted_left S v) 0) =
        S.getD (searchsorted_left S v) 0 - v := by
      rw [rabs_sub_comm]
      exact rabs_of_nonneg (by linarith)
    rw [e2, e1] at h3
    rcases lt_or_le t (searchsorted_left S v) with hts | hts
    · have ha : S.getD t 0 < v := hlt t hts
      have hc : S.getD t 0 ≤ S.getD (searchsorted_left S v - 1) 0 :=
        hmono t _ (by omega) (by omega)
      rw [rabs_of_nonneg (by linarith), rabs_of_nonpos (by linarith)]
      linarith
    · have hmid : S.getD (searchsorted_left S v) 0 ≤ S.getD t 0 :=
        hmono _ t hts ht
      rw [rabs_of_nonneg (by linarith), rabs_of_nonneg (by linarith)]
      linarith

theorem sorted_array_of_mono' (array : List ℚ) :
    ∀ t u, t ≤ u → u < (sorted_array_of array).length →
      (sorted_array_of array).getD t 0 ≤ (sorted_array_of array).getD u 0 := by
  intro t u htu hu
  exact sorted_array_of_mono htu (by rw [← sorted_array_of_length]; exact hu)

/-! ### The claims -/

/-- Claim C1: for every non-empty array and query value, `find_nearest_index`
returns a valid index `i` of the original array such that no index `j` has
`abs(array[j] - value) < abs(array[i] - value)`. -/
theorem find_nearest_index_nearest (array : List ℚ) (value : ℚ)
    (hne : array ≠ []) :
    find_nearest_index array value < array.length ∧
    ∀ j, j < array.length →
      ¬ |array.getD j 0 - value| <
        |array.getD (find_nearest_index array value) 0 - value| := by
  have hlen : array.length ≠ 0 := fun h => hne (List.length_eq_zero.mp h)
  refine ⟨find_nearest_index_lt array value hlen, ?_⟩
  intro j hj
  obtain ⟨t, ht, hPt⟩ := exists_argsort_pos hj
  have hjval : array.getD j 0 = (sorted_array_of array).getD t 0 := by
    rw [sorted_array_of_getD ht, hPt]
  rw [hjval, find_nearest_index_val array value hlen, ← rabs_eq_abs,
    ← rabs_eq_abs]
  exact not_lt.mpr (nearestPos_min (sorted_array_of_mono' array)
    (by rw [sorted_array_of_length]; exact ht))

theorem find_nearest_index_nearest_witness :
    find_nearest_index [2, 5] 4 < ([2, 5] : List ℚ).length ∧
    ∀ j, j < ([2, 5] : List ℚ).length →
      ¬ |([2, 5] : List ℚ).getD j 0 - 4| <
        |([2, 5] : List ℚ).getD (find_nearest_index [2, 5] 4) 0 - 4| :=
  find_nearest_index_nearest [2, 5] 4 (by simp)

/-- Claim C2: the spec requires an explicit input-validation error when
`num_neighbors` exceeds the array length; the code instead silently returns
the malformed range `slice(-2, 3)` on `array = [1, 2, 3]`, `central = 2`,
`num_neighbors = 5` — the start of the returned range is negative and no
error is raised. -/
theorem get_neighbors_index_no_validation :
    get_neighbors_index [1, 2, 3] 2 5 = (-2, 3) ∧
    (get_neighbors_index [1, 2, 3] 2 5).1 < 0 := by
  constructor <;>
    norm_num [get_neighbors_index, find_nearest_index, argsort, sorted_array_of,
      searchsorted_left, rabs, valueLe, List.insertionSort, List.orderedInsert,
      Int.fdiv]

/-- Claim C3: for `1 ≤ num_neighbors ≤ len(array)`, the returned half-open
range `[start, end)` has exactly `num_neighbors` indices and lies within
`[0, len(array)]`. -/
theorem get_neighbors_index_window (array : List ℚ) (central : ℚ) (nn : ℤ)
    (h1 : 1 ≤ nn) (h2 : nn ≤ (array.length : ℤ)) :
    (get_neighbors_index array central nn).2 -
        (get_neighbors_index array central nn).1 = nn ∧
    0 ≤ (get_neighbors_index array central nn).1 ∧
    (get_neighbors_index array central nn).2 ≤ (array.length : ℤ) := by
  simp only [get_neighbors_index]
  omega

theorem get_neighbors_index_window_witness :
    (get_neighbors_index [4, 8, 15] 9 2).2 -
        (get_neighbors_index [4, 8, 15] 9 2).1 = 2 ∧
    0 ≤ (get_neighbors_index [4, 8, 15] 9 2).1 ∧
    (get_neighbors_index [4, 8, 15] 9 2).2 ≤ (([4, 8, 15] : List ℚ).length : ℤ) :=
  get_neighbors_index_window [4, 8, 15] 9 2 (by decide) (by decide)

/-- Claim C4: when the leftmost insertion point is strictly inside the sorted
array, `find_nearest_index` returns the original-array index of the element
just before the insertion point exactly when its distance to `value` is
strictly smaller; otherwise — including on an exact tie — it returns the
original-array index of the element at the insertion point. -/
theorem find_nearest_index_interior (array : List ℚ) (value : ℚ)
    (h0 : 0 < searchsorted_left (sorted_array_of array) value)
    (h1 : searchsorted_left (sorted_array_of array) value < array.length) :
    (|value - (sorted_array_of array).getD
        (searchsorted_left (sorted_array_of array) value - 1) 0| <
      |value - (sorted_array_of array).getD
        (searchsorted_left (sorted_array_of array) value) 0| →
      find_nearest_index array value = (argsort array).getD
        (searchsorted_left (sorted_array_of array) value - 1) 0) ∧
    (|value - (sorted_array_of array).getD
        (searchsorted_left (sorted_array_of array) value) 0| ≤
      |value - (sorted_array_of array).getD
        (searchsorted_left (sorted_array_of array) value - 1) 0| →
      find_nearest_index array value = (argsort array).getD
        (searchsorted_left (sorted_array_of array) value) 0) := by
  constructor <;> intro hcond <;>
    simp only [← rabs_eq_abs] at hcond
  · have hp : nearestPos (sorted_array_of array) value =
        searchsorted_left (sorted_array_of array) value - 1 := by
      simp only [nearestPos, sorted_array_of_length]
      rw [if_neg (by omega), if_neg (by omega), if_pos hcond]
    rw [find_nearest_index_eq, hp]
  · have hp : nearestPos (sorted_array_of array) value =
        searchsorted_left (sorted_array_of array) value := by
      simp only [nearestPos, sorted_array_of_length]
      rw [if_neg (by omega), if_neg (by omega), if_neg (not_lt.mpr hcond)]
    rw [find_nearest_index_eq, hp]

theorem find_nearest_index_interior_witness :
    (0 : Nat) < searchsorted_left (sorted_array_of [1, 4]) 2 ∧
    searchsorted_left (sorted_array_of [1, 4]) 2 < ([1, 4] : List ℚ).length ∧
    ((|2 - (sorted_array_of [1, 4]).getD
        (searchsorted_left (sorted_array_of [1, 4]) 2 - 1) 0| <
      |2 - (sorted_array_of [1, 4]).getD
        (searchsorted_left (sorted_array_of [1, 4]) 2) 0| →
      find_nearest_index [1, 4] 2 = (argsort [1, 4]).getD
        (searchsorted_left (sorted_array_of [1, 4]) 2 - 1) 0) ∧
    (|2 - (sorted_array_of [1, 4]).getD
        (searchsorted_left (sorted_array_of [1, 4]) 2) 0| ≤
      |2 - (sorted_array_of [1, 4]).getD
        (searchsorted_left (sorted_array_of [1, 4]) 2 - 1) 0| →
      find_nearest_index [1, 4] 2 = (argsort [1, 4]).getD
        (searchsorted_left (sorted_array_of [1, 4]) 2) 0)) :=
  ⟨by decide, by decide,
    find_nearest_index_interior [1, 4] 2 (by decide) (by decide)⟩

/-- Claim C5: `get_neighbors_index` computes its result exactly by the
reference recipe of the spec, for every array, central value, and neighbor
count. -/
theorem get_neighbors_index_eq_recipe (array : List ℚ) (central : ℚ)
    (nn : ℤ) :
    get_neighbors_index array central nn =
      get_neighbors_index_recipe array central nn := by
  rfl

/-- Claim C6: for every non-empty array, if the leftmost insertion point is
at or beyond the end of the array, `find_nearest_index` returns the index of
a largest element; if the insertion point is `0`, it returns the index of a
smallest element. -/
theorem find_nearest_index_extreme (array : List ℚ) (value : ℚ)
    (hne : array ≠ []) :
    find_nearest_index array value < array.length ∧
    (array.length ≤ searchsorted_left (sorted_array_of array) value →
      ∀ j, j < array.length →
        array.getD j 0 ≤ array.getD (find_nearest_index array value) 0) ∧
    (searchsorted_left (sorted_array_of array) value = 0 →
      ∀ j, j < array.length →
        array.getD (find_nearest_index array value) 0 ≤ array.getD j 0) := by
  have hlen : array.length ≠ 0 := fun h => hne (List.length_eq_zero.mp h)
  refine ⟨find_nearest_index_lt array value hlen, ?_, ?_⟩
  · intro hbig j hj
    have hp : nearestPos (sorted_array_of array) value = array.length - 1 := by
      simp only [nearestPos, sorted_array_of_length]
      rw [if_pos (by omega)]
    obtain ⟨t, ht, hPt⟩ := exists_argsort_pos hj
    have hjval : array.getD j 0 = (sorted_array_of array).getD t 0 := by
      rw [sorted_array_of_getD ht, hPt]
    rw [hjval, find_nearest_index_val array value hlen, hp]
    exact sorted_array_of_mono (by omega) (by omega)
  · intro hzero j hj
    have hp : nearestPos (sorted_array_of array) value = 0 := by
      simp only [nearestPos, sorted_array_of_length]
      rw [if_neg (by omega), if_pos hzero]
    obtain ⟨t, ht, hPt⟩ := exists_argsort_pos hj
    have hjval : array.getD j 0 = (sorted_array_of array).getD t 0 := by
      rw [sorted_array_of_getD ht, hPt]
    rw [hjval, find_nearest_index_val array value hlen, hp]
    exact sorted_array_of_mono (Nat.zero_le _) ht

theorem find_nearest_index_extreme_witness :
    find_nearest_index [5, 2] 100 < ([5, 2] : List ℚ).length ∧
    (([5, 2] : List ℚ).length ≤ searchsorted_left (sorted_array_of [5, 2]) 100 →
      ∀ j, j < ([5, 2] : List ℚ).length →
        ([5, 2] : List ℚ).getD j 0 ≤
          ([5, 2] : List ℚ).getD (find_nearest_index [5, 2] 100) 0) ∧
    (searchsorted_left (sorted_array_of [5, 2]) 100 = 0 →
      ∀ j, j < ([5, 2] : List ℚ).length →
        ([5, 2] : List ℚ).getD (find_nearest_index [5, 2] 100) 0 ≤
          ([5, 2] : List ℚ).getD j 0) :=
  find_nearest_index_extreme [5, 2] 100 (by simp)

/-- Claim C7: if `value` occurs in the array at position `k`, then
`find_nearest_index` returns a valid index holding exactly `value`. -/
theorem find_nearest_index_exact_match (array : List ℚ) (value : ℚ) (k : Nat)
    (hk : k < array.length) (hv : array.getD k 0 = value) :
    find_nearest_index array value < array.length ∧
    array.getD (find_nearest_index array value) 0 = value := by
  have hlen : array.length ≠ 0 := by omega
  obtain ⟨t, ht, hPt⟩ := exists_argsort_pos hk
  have hSt : (sorted_array_of array).getD t 0 = value := by
    rw [sorted_array_of_getD ht, hPt, hv]
  have hinsle : searchsorted_left (sorted_array_of array) value ≤ t := by
    by_contra hcon
    push_neg at hcon
    have := (searchsorted_lt_of_lt hcon).2
    rw [hSt] at this
    exact lt_irrefl _ this
  have hinslt : searchsorted_left (sorted_array_of array) value < array.length :=
    lt_of_le_of_lt hinsle ht
  have hSins : (sorted_array_of array).getD
      (searchsorted_left (sorted_array_of array) value) 0 = value := by
    have hub : (sorted_array_of array).getD
        (searchsorted_left (sorted_array_of array) value) 0 ≤ value := by
      have := sorted_array_of_mono hinsle ht
      rwa [hSt] at this
    have hlb : value ≤ (sorted_array_of array).getD
        (searchsorted_left (sorted_array_of array) value) 0 :=
      searchsorted_ge (by rw [sorted_array_of_length]; exact hinslt)
    linarith
  refine ⟨find_nearest_index_lt array value hlen, ?_⟩
  rw [find_nearest_index_val array value hlen]
  by_cases hz : searchsorted_left (sorted_array_of array) value = 0
  · have hp : nearestPos (sorted_array_of array) value = 0 := by
      simp only [nearestPos, sorted_array_of_length]
      rw [if_neg (by omega), if_pos hz]
    rw [hp, ← hz]
    exact hSins
  · have hcond : ¬ rabs (value - (sorted_array_of array).getD
        (searchsorted_left (sorted_array_of array) value - 1) 0) <
          rabs (value - (sorted_array_of array).getD
            (searchsorted_left (sorted_array_of array) value) 0) := by
      rw [hSins, sub_self, rabs_of_nonneg le_rfl]
      exact not_lt.mpr (rabs_nonneg _)
    have hp : nearestPos (sorted_array_of array) value =
        searchsorted_left (sorted_array_of array) value := by
      simp only [nearestPos, sorted_array_of_length]
      rw [if_neg (by omega), if_neg hz, if_neg hcond]
    rw [hp]
    exact hSins

theorem find_nearest_index_exact_match_witness :
    find_nearest_index [3, 8] 8 < ([3, 8] : List ℚ).length ∧
    ([3, 8] : List ℚ).getD (find_nearest_index [3, 8] 8) 0 = 8 :=
  find_nearest_index_exact_match [3, 8] 8 1 (by decide) (by decide)

/-- Claim C8: on the concrete input `array = [10, 1, 7, 3, 9]`,
`find_nearest_index(array, 6)` returns `2` and
`get_neighbors_index(array, 6, 3)` returns the half-open range `[1, 4)`. -/
theorem find_nearest_index_concrete_example :
    find_nearest_index [10, 1, 7, 3, 9] 6 = 2 ∧
    get_neighbors_index [10, 1, 7, 3, 9] 6 3 = (1, 4) := by
  constructor <;>
    norm_num [get_neighbors_index, find_nearest_index, argsort, sorted_array_of,
      searchsorted_left, rabs, valueLe, List.insertionSort, List.orderedInsert,
      Int.fdiv]

/-- Claim C9: `find_nearest_index` is deterministic and does not modify its
input array: a second call on the array observed after the first call, with
the same query value, returns the same index, and the observed array equals
the input array after both calls. -/
theorem find_nearest_index_deterministic (array : List ℚ) (value : ℚ) :
    (find_nearest_index_call array value).2 = array ∧
    (find_nearest_index_call
        (find_nearest_index_call array value).2 value).2 = array ∧
    (find_nearest_index_call
        (find_nearest_index_call array value).2 value).1 =
      (find_nearest_index_call array value).1 :=
  ⟨rfl, rfl, rfl⟩

/-- Claim C10: for `1 ≤ num_neighbors ≤ len(array)`, the index returned by
`find_nearest_index` lies inside the half-open range returned by
`get_neighbors_index`. -/
theorem get_neighbors_index_contains (array : List ℚ) (central : ℚ) (nn : ℤ)
    (h1 : 1 ≤ nn) (h2 : nn ≤ (array.length : ℤ)) :
    (get_neighbors_index array central nn).1 ≤
        (find_nearest_index array central : ℤ) ∧
    (find_nearest_index array central : ℤ) <
        (get_neighbors_index array central nn).2 := by
  have hlen : array.length ≠ 0 := by omega
  have hidx : find_nearest_index array central < array.length :=
    find_nearest_index_lt array central hlen
  have hq0 : 0 ≤ Int.fdiv (nn - 1) 2 := Int.fdiv_nonneg (by omega) (by omega)
  have hq1 : Int.fdiv (nn - 1) 2 ≤ nn - 1 := by
    rw [Int.fdiv_eq_ediv _ (by omega)]
    omega
  simp only [get_neighbors_index]
  omega

theorem get_neighbors_index_contains_witness :
    (get_neighbors_index [1, 3, 5] 4 3).1 ≤
        (find_nearest_index [1, 3, 5] 4 : ℤ) ∧
    (find_nearest_index [1, 3, 5] 4 : ℤ) <
        (get_neighbors_index [1, 3, 5] 4 3).2 :=
  get_neighbors_index_contains [1, 3, 5] 4 3 (by decide) (by decide)

end Astro
